import Mathlib

/-!
Formal model of the survival-metrics module (`pycox/evaluation/metrics.py`).

Durations and survival probabilities are modelled as rationals (the float
computations of the source consist of comparisons, sums of halves and a final
division, which are exact), event indicators as booleans, and arrays as
functions out of an index range.  The concordance loops, the pointwise Brier
scorer and the integration wrappers are translated directly from the source;
the external collaborators (the Kaplan-Meier censoring-curve fitter and the
numerical integrator) are modelled from the specification's description of
their interfaces.
-/

/-- Pair comparability for the adjusted Antolini method (`_is_comparable`):
`((t_i < t_j) & d_i) | ((t_i == t_j) & (d_i | d_j))`. -/
def is_comparable (ti tj : ℚ) (di dj : Bool) : Bool :=
  (decide (ti < tj) && di) || (decide (ti = tj) && (di || dj))

/-- Pair comparability for the Antolini method (`_is_comparable_antolini`):
`((t_i < t_j) & d_i) | ((t_i == t_j) & d_i & (d_j == 0))`. -/
def is_comparable_antolini (ti tj : ℚ) (di dj : Bool) : Bool :=
  (decide (ti < tj) && di) || (decide (ti = tj) && di && !dj)

/-- Graded concordance contribution for the adjusted method (`_is_concordant`),
translated branch by branch from the source, including the final gating
multiplication by `_is_comparable`. -/
def is_concordant (si sj ti tj : ℚ) (di dj : Bool) : ℚ :=
  (if ti < tj then
      (if si < sj then (1 : ℚ) else 0) + (if si = sj then (1 : ℚ) / 2 else 0)
    else if ti = tj then
      (if di && dj then 1 - (if si ≠ sj then (1 : ℚ) / 2 else 0)
       else if di then (if si < sj then (1 : ℚ) else 0) + (if si = sj then (1 : ℚ) / 2 else 0)
       else if dj then (if sj < si then (1 : ℚ) else 0) + (if si = sj then (1 : ℚ) / 2 else 0)
       else 0)
    else 0)
  * (if is_comparable ti tj di dj then 1 else 0)

/-- Strict indicator contribution for the Antolini method
(`_is_concordant_antolini`): `(s_i < s_j) & _is_comparable_antolini(...)`. -/
def is_concordant_antolini (si sj ti tj : ℚ) (di dj : Bool) : ℚ :=
  if si < sj ∧ is_comparable_antolini ti tj di dj = true then 1 else 0

/-- The O(n²) comparable-pair accumulation (`_sum_comparable`): both indices
run over `range n`, the diagonal `j = i` is skipped, and the boolean predicate
is accumulated as 0/1. -/
def sum_comparable (n : ℕ) (t : ℕ → ℚ) (d : ℕ → Bool)
    (cmpf : ℚ → ℚ → Bool → Bool → Bool) : ℚ :=
  ((List.range n).map (fun i =>
    ((List.range n).map (fun j =>
      if j ≠ i then (if cmpf (t i) (t j) (d i) (d j) then (1 : ℚ) else 0) else 0)).sum)).sum

/-- The O(n²) concordance accumulation (`_sum_concordant_disc`): for each `i`
the survival row is fixed at `s_idx[i]`, and the contribution is evaluated at
`s[idx, i]` and `s[idx, j]` for every `j ≠ i`. -/
def sum_concordant_disc (n : ℕ) (s : ℕ → ℕ → ℚ) (t : ℕ → ℚ) (d : ℕ → Bool) (sIdx : ℕ → ℕ)
    (concf : ℚ → ℚ → ℚ → ℚ → Bool → Bool → ℚ) : ℚ :=
  ((List.range n).map (fun i =>
    ((List.range n).map (fun j =>
      if j ≠ i then concf (s (sIdx i) i) (s (sIdx i) j) (t i) (t j) (d i) (d j) else 0)).sum)).sum

/-- Result of `concordance_td`: either an ordinary numeric return value, or the
`ValueError` object that the source builds and *returns* (rather than raises)
for an unknown method string. -/
inductive ConcResult where
  | value (q : ℚ)
  | errorObject (msg : String)
  deriving DecidableEq

/-- The time-dependent concordance index (`concordance_td`): dispatches on the
method string, returns the quotient of the concordance sum by the comparable
sum for the two known methods, and returns (does not raise) a `ValueError`
object otherwise.  The Fortran-order re-layout and the float-to-int cast of
`events` in the source do not change any value used here. -/
def concordance_td (n : ℕ) (t : ℕ → ℚ) (d : ℕ → Bool) (surv : ℕ → ℕ → ℚ)
    (surv_idx : ℕ → ℕ) (method : String) : ConcResult :=
  if method = "adj_antolini" then
    ConcResult.value (sum_concordant_disc n surv t d surv_idx is_concordant /
      sum_comparable n t d is_comparable)
  else if method = "antolini" then
    ConcResult.value (sum_concordant_disc n surv t d surv_idx is_concordant_antolini /
      sum_comparable n t d is_comparable_antolini)
  else ConcResult.errorObject ("Need 'method' to be e.g. 'antolini', got '" ++ method ++ "'.")

/-- Spec-side numerator: the sum over all ordered pairs `(i, j)` with `i ≠ j`
of the concordance contribution evaluated at `s_i = surv[surv_idx[i], i]` and
`s_j = surv[surv_idx[i], j]` (the row fixed by `i`). -/
def numerator_spec (n : ℕ) (s : ℕ → ℕ → ℚ) (t : ℕ → ℚ) (d : ℕ → Bool) (sIdx : ℕ → ℕ)
    (concf : ℚ → ℚ → ℚ → ℚ → Bool → Bool → ℚ) : ℚ :=
  ∑ i in Finset.range n, ∑ j in (Finset.range n).erase i,
    concf (s (sIdx i) i) (s (sIdx i) j) (t i) (t j) (d i) (d j)

/-- Spec-side denominator: the sum over all ordered pairs `(i, j)` with
`i ≠ j` of the comparability indicator. -/
def denominator_spec (n : ℕ) (t : ℕ → ℚ) (d : ℕ → Bool)
    (cmpf : ℚ → ℚ → Bool → Bool → Bool) : ℚ :=
  ∑ i in Finset.range n, ∑ j in (Finset.range n).erase i,
    (if cmpf (t i) (t j) (d i) (d j) then (1 : ℚ) else 0)

/-- Adjusted-Antolini comparability as the specification words it:
true iff (`t_i < t_j` and `d_i`) or (`t_i == t_j` and (`d_i` or `d_j`)). -/
def comparable_adj_spec (ti tj : ℚ) (di dj : Bool) : Bool :=
  decide ((ti < tj ∧ di = true) ∨ (ti = tj ∧ (di = true ∨ dj = true)))

/-- Adjusted-Antolini concordance contribution as the specification words it:
a graded score in `[0,1]`, gated (multiplied) by the adjusted comparability;
for `t_i < t_j` the grade is 1 / one-half / 0 by comparing `s_i` with `s_j`;
for `t_i == t_j` with both events the grade is 1 unless `s_i ≠ s_j` in which
case one-half, with only `d_i` it grades `s_i < s_j`, with only `d_j` it
grades `s_i > s_j`, and with neither it is 0. -/
def concordant_adj_spec (si sj ti tj : ℚ) (di dj : Bool) : ℚ :=
  (if ti < tj then (if si < sj then (1 : ℚ) else if si = sj then 1 / 2 else 0)
   else if ti = tj then
     (if di = true ∧ dj = true then (if si ≠ sj then (1 : ℚ) / 2 else 1)
      else if di = true then (if si < sj then (1 : ℚ) else if si = sj then 1 / 2 else 0)
      else if dj = true then (if si > sj then (1 : ℚ) else if si = sj then 1 / 2 else 0)
      else 0)
   else 0)
  * (if comparable_adj_spec ti tj di dj then 1 else 0)

/-- Number of subjects at risk at time `τ`: those whose observed duration is
at least `τ`. -/
def atRisk (n : ℕ) (T : ℕ → ℚ) (τ : ℚ) : ℕ :=
  ((Finset.range n).filter (fun i => τ ≤ T i)).card

/-- Number of censoring events exactly at `τ`: the censoring curve is fit on
`(durations, 1 - events)`, so a subject with `events = False` is an observed
event of the censoring distribution. -/
def censAt (n : ℕ) (T : ℕ → ℚ) (d : ℕ → Bool) (τ : ℚ) : ℕ :=
  ((Finset.range n).filter (fun i => T i = τ ∧ d i = false)).card

/-- One Kaplan-Meier factor of the censoring curve at time `τ`. -/
def kmFactor (n : ℕ) (T : ℕ → ℚ) (d : ℕ → Bool) (τ : ℚ) : ℚ :=
  1 - (censAt n T d τ : ℚ) / (atRisk n T τ : ℚ)

/-- The distinct observed duration values. -/
def obsTimes (n : ℕ) (T : ℕ → ℚ) : Finset ℚ :=
  (Finset.range n).image T

/-- Modelled from the spec: the external Kaplan-Meier censoring-curve fitter
(`KaplanMeierFitter` from lifelines, an out-of-scope collaborator) fit on
`(durations, 1 - events)`; its right-continuous survival function at `x` is
the product-limit over the distinct observed times up to and including `x`,
queryable exactly at training durations and at arbitrary times. -/
def kmCensor (n : ℕ) (T : ℕ → ℚ) (d : ℕ → Bool) (x : ℚ) : ℚ :=
  ∏ τ in (obsTimes n T).filter (fun τ => τ ≤ x), kmFactor n T d τ

/-- Per-time Brier score (`compute_score` inside `brier_score`): subjects with
`duration <= t` and an event contribute `p^2` weighted by the censoring curve
at their own duration, subjects with `duration > t` contribute `(1-p)^2`
weighted by the censoring curve at `t`, and the total is divided by `n`. -/
def brier_at (n : ℕ) (T : ℕ → ℚ) (d : ℕ → Bool) (tm : ℚ) (p : ℕ → ℚ) : ℚ :=
  ((∑ i in (Finset.range n).filter (fun i => T i ≤ tm ∧ d i = true),
      (p i) ^ 2 / kmCensor n T d (T i)) +
   (∑ i in (Finset.range n).filter (fun i => tm < T i),
      (1 - p i) ^ 2 / kmCensor n T d tm)) / n

/-- `brier_score`: one per-time score for each requested time, row `k` of
`prob` belonging to the `k`-th time. -/
def brier_score (times : List ℚ) (prob : ℕ → ℕ → ℚ) (n : ℕ) (T : ℕ → ℚ) (d : ℕ → Bool) :
    List ℚ :=
  times.enum.map (fun kt => brier_at n T d kt.2 (prob kt.1))

/-- A pointwise score as the integration wrappers see it: a floating-point
value that is either finite or non-finite (`inf`/`NaN`, which the float
scorer can produce at degenerate grid points). -/
inductive FloatVal where
  | fin (q : ℚ)
  | nonfin
  deriving DecidableEq

/-- The `np.isfinite` masking step: keeps each finite score together with its
grid time, dropping non-finite scores and their times. -/
def filteredPairs (scores : List FloatVal) (grid : List ℚ) : List (ℚ × ℚ) :=
  (scores.zip grid).filterMap (fun sv =>
    match sv.1 with
    | FloatVal.fin y => some (y, sv.2)
    | FloatVal.nonfin => none)

/-- `pd.Series(times_grid).is_monotonic_increasing`: NON-strict comparison of
adjacent elements (equal adjacent times pass). -/
def isMonotonicIncreasing : List ℚ → Bool
  | [] => true
  | [_] => true
  | a :: b :: rest => decide (a ≤ b) && isMonotonicIncreasing (b :: rest)

/-- `integrated_brier_score_numpy`: asserts the (non-strict) monotone grid
check, computes the pointwise scores, drops non-finite scores together with
their grid times, integrates the remaining pairs and divides by the span
(last minus first) of the remaining grid.  The pointwise scorer is a
parameter because non-finite scores are a floating-point phenomenon, and the
integrator is the external `scipy` collaborator, consumed per the spec as
`integrate (y_values, x_values)`; the second error case models the indexing
error Python raises when every score was dropped. -/
def integrated_brier_score_numpy (scorer : List ℚ → List FloatVal)
    (integrate : List ℚ → List ℚ → ℚ) (times_grid : List ℚ) : Except String ℚ :=
  if isMonotonicIncreasing times_grid then
    match filteredPairs (scorer times_grid) times_grid with
    | [] => Except.error "IndexError: index -1 is out of bounds"
    | x :: rest =>
        Except.ok (integrate ((x :: rest).map Prod.fst) ((x :: rest).map Prod.snd) /
          (((x :: rest).map Prod.snd).getLastD 0 - x.2))
  else Except.error "Need monotonic increasing times_grid."

/-- `integrated_binomial_log_likelihood_numpy`: a verbatim copy of the Brier
integration wrapper in the source, with the log-likelihood scorer in place of
the Brier scorer. -/
def integrated_binomial_log_likelihood_numpy (scorer : List ℚ → List FloatVal)
    (integrate : List ℚ → List ℚ → ℚ) (times_grid : List ℚ) : Except String ℚ :=
  if isMonotonicIncreasing times_grid then
    match filteredPairs (scorer times_grid) times_grid with
    | [] => Except.error "IndexError: index -1 is out of bounds"
    | x :: rest =>
        Except.ok (integrate ((x :: rest).map Prod.fst) ((x :: rest).map Prod.snd) /
          (((x :: rest).map Prod.snd).getLastD 0 - x.2))
  else Except.error "Need monotonic increasing times_grid."

theorem list_sum_range (n : ℕ) (f : ℕ → ℚ) :
    ((List.range n).map f).sum = ∑ i in Finset.range n, f i := by
  induction n with
  | zero => simp
  | succ m ih => rw [List.range_succ, Finset.sum_range_succ, List.map_append, List.sum_append]; simp [ih]

theorem sum_comparable_eq_spec (n : ℕ) (t : ℕ → ℚ) (d : ℕ → Bool)
    (cmpf : ℚ → ℚ → Bool → Bool → Bool) :
    sum_comparable n t d cmpf = denominator_spec n t d cmpf := by
  unfold sum_comparable denominator_spec
  rw [list_sum_range]
  refine Finset.sum_congr rfl fun i _ => ?_
  rw [list_sum_range, ← Finset.filter_ne' (Finset.range n) i, Finset.sum_filter]

theorem sum_concordant_disc_eq_spec (n : ℕ) (s : ℕ → ℕ → ℚ) (t : ℕ → ℚ) (d : ℕ → Bool)
    (sIdx : ℕ → ℕ) (concf : ℚ → ℚ → ℚ → ℚ → Bool → Bool → ℚ) :
    sum_concordant_disc n s t d sIdx concf = numerator_spec n s t d sIdx concf := by
  unfold sum_concordant_disc numerator_spec
  rw [list_sum_range]
  refine Finset.sum_congr rfl fun i _ => ?_
  rw [list_sum_range, ← Finset.filter_ne' (Finset.range n) i, Finset.sum_filter]

/-- C2: for every ordered pair of subjects, the adjusted-Antolini pair
contribution of the code equals the specification's definition: the
comparability predicates agree, and the graded, comparability-gated
concordance contributions agree. -/
theorem adj_pair_predicates_match_spec :
    ∀ (si sj ti tj : ℚ) (di dj : Bool),
      is_comparable ti tj di dj = comparable_adj_spec ti tj di dj ∧
      is_concordant si sj ti tj di dj = concordant_adj_spec si sj ti tj di dj := by
  intro si sj ti tj di dj
  constructor
  · unfold is_comparable comparable_adj_spec
    by_cases hlt : ti < tj <;> by_cases heq : ti = tj <;> cases di <;> cases dj <;>
      first
        | exact absurd heq (ne_of_lt hlt)
        | simp [hlt, heq]
  · unfold is_concordant concordant_adj_spec is_comparable comparable_adj_spec
    by_cases hlt : ti < tj <;> by_cases heq : ti = tj <;>
      by_cases slt : si < sj <;> by_cases seq : si = sj <;>
      cases di <;> cases dj <;>
      first
        | exact absurd heq (ne_of_lt hlt)
        | exact absurd seq (ne_of_lt slt)
        | (simp [hlt, heq, slt, seq] <;> norm_num)

/-- C3: at an unknown method string the code builds a `ValueError` and returns
it as an ordinary value (it does not raise): the call evaluates to the
`errorObject` result. -/
theorem concordance_td_unknown_method_returns_error :
    concordance_td 1 (fun _ => 0) (fun _ => false) (fun _ _ => 0) (fun _ => 0) "foo" =
      ConcResult.errorObject "Need 'method' to be e.g. 'antolini', got 'foo'." := rfl

/-- C1: for method `adj_antolini` or `antolini`, `concordance_td` returns
exactly the ratio of the spec-side numerator (sum over ordered pairs `i ≠ j`
of the concordance contribution at `s_i = surv[surv_idx[i], i]`,
`s_j = surv[surv_idx[i], j]`) to the spec-side denominator (sum over ordered
pairs `i ≠ j` of the comparability indicator), with the predicate pair
selected by the method. -/
theorem concordance_td_is_pair_ratio (n : ℕ) (t : ℕ → ℚ) (d : ℕ → Bool)
    (surv : ℕ → ℕ → ℚ) (surv_idx : ℕ → ℕ) (method : String)
    (hm : method = "adj_antolini" ∨ method = "antolini") :
    concordance_td n t d surv surv_idx method =
      ConcResult.value
        ((if method = "adj_antolini" then numerator_spec n surv t d surv_idx is_concordant
          else numerator_spec n surv t d surv_idx is_concordant_antolini) /
         (if method = "adj_antolini" then denominator_spec n t d is_comparable
          else denominator_spec n t d is_comparable_antolini)) := by
  rcases hm with h | h <;> subst h <;>
    simp [concordance_td, sum_comparable_eq_spec, sum_concordant_disc_eq_spec]

/-- Witness for C1: the hypotheses hold and the ratio form is reached at a
concrete two-subject input with the default method. -/
theorem concordance_td_is_pair_ratio_witness :
    (("adj_antolini" : String) = "adj_antolini" ∨ ("adj_antolini" : String) = "antolini") ∧
    concordance_td 2 (fun i => (i : ℚ)) (fun _ => true)
        (fun _ j => if j = 0 then (1 : ℚ) / 4 else 3 / 4) (fun _ => 0) "adj_antolini" =
      ConcResult.value
        ((if ("adj_antolini" : String) = "adj_antolini" then
            numerator_spec 2 (fun _ j => if j = 0 then (1 : ℚ) / 4 else 3 / 4)
              (fun i => (i : ℚ)) (fun _ => true) (fun _ => 0) is_concordant
          else
            numerator_spec 2 (fun _ j => if j = 0 then (1 : ℚ) / 4 else 3 / 4)
              (fun i => (i : ℚ)) (fun _ => true) (fun _ => 0) is_concordant_antolini) /
         (if ("adj_antolini" : String) = "adj_antolini" then
            denominator_spec 2 (fun i => (i : ℚ)) (fun _ => true) is_comparable
          else
            denominator_spec 2 (fun i => (i : ℚ)) (fun _ => true) is_comparable_antolini)) :=
  ⟨Or.inl rfl, concordance_td_is_pair_ratio 2 _ _ _ _ _ (Or.inl rfl)⟩

/-- C4 counterexample: two subjects with the same duration, both events, and a
constant survival matrix (one half everywhere): both ordered pairs are
comparable and each gets the full tied-prediction credit 1, so the adjusted
concordance is 1, not one half. -/
theorem constant_surv_tied_events_not_half :
    concordance_td 2 (fun _ => 1) (fun _ => true) (fun _ _ => (1 : ℚ) / 2) (fun _ => 0)
        "adj_antolini" = ConcResult.value 1 ∧
    ConcResult.value (1 : ℚ) ≠ ConcResult.value ((1 : ℚ) / 2) := by
  constructor
  · norm_num [concordance_td, sum_concordant_disc, sum_comparable, List.range_succ,
      is_concordant, is_comparable]
  · intro h
    injection h with h
    norm_num at h

theorem tied_free_pair_half (c ti tj : ℚ) (di dj : Bool)
    (hnt : ti = tj → ¬(di = true ∧ dj = true)) :
    is_concordant c c ti tj di dj + is_concordant c c tj ti dj di =
      ((if is_comparable ti tj di dj then (1 : ℚ) else 0) +
       (if is_comparable tj ti dj di then (1 : ℚ) else 0)) / 2 := by
  rcases lt_trichotomy ti tj with h | h | h
  · cases di <;> cases dj <;>
      norm_num [is_concordant, is_comparable, h, h.ne, h.ne', lt_asymm h]
  · subst h
    cases di <;> cases dj
    · norm_num [is_concordant, is_comparable]
    · norm_num [is_concordant, is_comparable]
    · norm_num [is_concordant, is_comparable]
    · exact absurd ⟨rfl, rfl⟩ (hnt rfl)
  · cases di <;> cases dj <;>
      norm_num [is_concordant, is_comparable, h, h.ne, h.ne', lt_asymm h]

theorem pair_sum_half (n : ℕ) (Fn Gn : ℕ → ℕ → ℚ)
    (h : ∀ i ∈ Finset.range n, ∀ j ∈ Finset.range n, Fn i j + Fn j i = (Gn i j + Gn j i) / 2) :
    ∑ i in Finset.range n, ∑ j in Finset.range n, Fn i j =
      (∑ i in Finset.range n, ∑ j in Finset.range n, Gn i j) / 2 := by
  have hswap : ∑ i in Finset.range n, ∑ j in Finset.range n, Fn j i
      = ∑ i in Finset.range n, ∑ j in Finset.range n, Fn i j := Finset.sum_comm
  have hgswap : ∑ i in Finset.range n, ∑ j in Finset.range n, Gn j i
      = ∑ i in Finset.range n, ∑ j in Finset.range n, Gn i j := Finset.sum_comm
  have hsum : ∑ i in Finset.range n, ∑ j in Finset.range n, (Fn i j + Fn j i)
      = ∑ i in Finset.range n, ∑ j in Finset.range n, (Gn i j + Gn j i) / 2 :=
    Finset.sum_congr rfl fun i hi => Finset.sum_congr rfl fun j hj => h i hi j hj
  simp only [← Finset.sum_div, Finset.sum_add_distrib] at hsum
  rw [hswap, hgswap] at hsum
  linarith

/-- C4 (amended): for every valid input with a constant survival matrix, a
nonzero comparable count, and no two distinct subjects sharing a duration
with both having events, the adjusted concordance is exactly one half. -/
theorem concordance_td_constant_surv_half (n : ℕ) (t : ℕ → ℚ) (d : ℕ → Bool)
    (surv : ℕ → ℕ → ℚ) (sIdx : ℕ → ℕ) (c : ℚ)
    (hconst : ∀ k i, surv k i = c)
    (hties : ∀ i j, i < n → j < n → i ≠ j → t i = t j → ¬(d i = true ∧ d j = true))
    (hd : sum_comparable n t d is_comparable ≠ 0) :
    concordance_td n t d surv sIdx "adj_antolini" = ConcResult.value (1 / 2) := by
  have eN : sum_concordant_disc n surv t d sIdx is_concordant
      = ∑ i in Finset.range n, ∑ j in Finset.range n,
          (if j ≠ i then is_concordant c c (t i) (t j) (d i) (d j) else 0) := by
    unfold sum_concordant_disc
    rw [list_sum_range]
    refine Finset.sum_congr rfl fun i _ => ?_
    rw [list_sum_range]
    exact Finset.sum_congr rfl fun j _ => by simp only [hconst]
  have eD : sum_comparable n t d is_comparable
      = ∑ i in Finset.range n, ∑ j in Finset.range n,
          (if j ≠ i then (if is_comparable (t i) (t j) (d i) (d j) then (1 : ℚ) else 0) else 0) := by
    unfold sum_comparable
    rw [list_sum_range]
    exact Finset.sum_congr rfl fun i _ => list_sum_range n _
  have key : ∀ i ∈ Finset.range n, ∀ j ∈ Finset.range n,
      (if j ≠ i then is_concordant c c (t i) (t j) (d i) (d j) else 0)
        + (if i ≠ j then is_concordant c c (t j) (t i) (d j) (d i) else 0)
      = ((if j ≠ i then (if is_comparable (t i) (t j) (d i) (d j) then (1 : ℚ) else 0) else 0)
        + (if i ≠ j then (if is_comparable (t j) (t i) (d j) (d i) then (1 : ℚ) else 0) else 0)) / 2 := by
    intro i hi j hj
    by_cases hij : i = j
    · subst hij; simp
    · have hji : j ≠ i := fun hh => hij hh.symm
      rw [if_pos hji, if_pos hij, if_pos hji, if_pos hij]
      exact tied_free_pair_half c (t i) (t j) (d i) (d j)
        (fun heq => hties i j (Finset.mem_range.mp hi) (Finset.mem_range.mp hj) hij heq)
  have hhalf := pair_sum_half n _ _ key
  unfold concordance_td
  rw [if_pos rfl]
  have hD0 : (∑ i in Finset.range n, ∑ j in Finset.range n,
      (if j ≠ i then (if is_comparable (t i) (t j) (d i) (d j) then (1 : ℚ) else 0) else 0)) ≠ 0 := by
    rw [← eD]; exact hd
  rw [eN, eD, hhalf]
  congr 1
  rw [div_div, mul_comm, ← div_div, div_self hD0]
/-- Witness for C4 (amended): at two subjects with distinct durations, both
events, and the constant one-half survival matrix, the hypotheses hold and the
adjusted concordance is exactly one half. -/
theorem concordance_td_constant_surv_half_witness :
    sum_comparable 2 (fun i => (i : ℚ)) (fun _ => true) is_comparable ≠ 0 ∧
    concordance_td 2 (fun i => (i : ℚ)) (fun _ => true) (fun _ _ => (1 : ℚ) / 2) (fun _ => 0)
      "adj_antolini" = ConcResult.value (1 / 2) := by
  constructor
  · norm_num [sum_comparable, List.range_succ, is_comparable]
  · exact concordance_td_constant_surv_half 2 _ _ _ _ ((1 : ℚ) / 2) (fun _ _ => rfl)
      (fun i j _ _ hij heq => absurd (Nat.cast_injective heq) hij)
      (by norm_num [sum_comparable, List.range_succ, is_comparable])

theorem no_ties_pair_agree (si sj ti tj : ℚ) (di dj : Bool) (ht : ti ≠ tj) (hs : si ≠ sj) :
    is_concordant si sj ti tj di dj = is_concordant_antolini si sj ti tj di dj ∧
    is_comparable ti tj di dj = is_comparable_antolini ti tj di dj := by
  rcases lt_trichotomy ti tj with h | h | h
  · constructor
    · rcases lt_trichotomy si sj with h2 | h2 | h2
      · cases di <;> cases dj <;>
          norm_num [is_concordant, is_concordant_antolini, is_comparable, is_comparable_antolini,
            h, h.ne, h2, h2.ne]
      · exact absurd h2 hs
      · cases di <;> cases dj <;>
          norm_num [is_concordant, is_concordant_antolini, is_comparable, is_comparable_antolini,
            h, h.ne, h2.ne', lt_asymm h2]
    · cases di <;> cases dj <;>
        norm_num [is_comparable, is_comparable_antolini, h, h.ne]
  · exact absurd h ht
  · constructor
    · rcases lt_trichotomy si sj with h2 | h2 | h2
      · cases di <;> cases dj <;>
          norm_num [is_concordant, is_concordant_antolini, is_comparable, is_comparable_antolini,
            h, h.ne', lt_asymm h, h2]
      · exact absurd h2 hs
      · cases di <;> cases dj <;>
          norm_num [is_concordant, is_concordant_antolini, is_comparable, is_comparable_antolini,
            h, h.ne', lt_asymm h, h2.ne', lt_asymm h2]
    · cases di <;> cases dj <;>
        norm_num [is_comparable, is_comparable_antolini, h, h.ne', lt_asymm h]

/-- C5 counterexample: two subjects with distinct durations (0 and 1), both
events, and tied predictions (the constant one-half matrix): the Antolini
concordance is 0 while the adjusted one is one half, so the two methods
disagree even though no durations are tied. -/
theorem methods_differ_on_tied_predictions :
    (0 : ℚ) ≠ 1 ∧
    concordance_td 2 (fun i => (i : ℚ)) (fun _ => true) (fun _ _ => (1 : ℚ) / 2) (fun _ => 0)
        "antolini" ≠
      concordance_td 2 (fun i => (i : ℚ)) (fun _ => true) (fun _ _ => (1 : ℚ) / 2) (fun _ => 0)
        "adj_antolini" := by
  refine ⟨by norm_num, ?_⟩
  have h1 : concordance_td 2 (fun i => (i : ℚ)) (fun _ => true) (fun _ _ => (1 : ℚ) / 2)
      (fun _ => 0) "antolini" = ConcResult.value 0 := by
    unfold concordance_td
    simp only [String.reduceEq, if_false, ite_false, if_true, ite_true]
    norm_num [sum_concordant_disc, sum_comparable, List.range_succ,
      is_concordant_antolini, is_comparable_antolini]
  have h2 : concordance_td 2 (fun i => (i : ℚ)) (fun _ => true) (fun _ _ => (1 : ℚ) / 2)
      (fun _ => 0) "adj_antolini" = ConcResult.value (1 / 2) := by
    norm_num [concordance_td, sum_concordant_disc, sum_comparable, List.range_succ,
      is_concordant, is_comparable]
  rw [h1, h2]
  intro hh
  injection hh with hh
  norm_num at hh

/-- C5 (amended): when no two distinct subjects share a duration and no
compared pair of predictions is tied (for every ordered pair `i ≠ j` the two
survival values read from row `surv_idx[i]` differ), the Antolini and
adjusted-Antolini concordance values are identical. -/
theorem concordance_methods_agree_no_ties (n : ℕ) (t : ℕ → ℚ) (d : ℕ → Bool)
    (surv : ℕ → ℕ → ℚ) (sIdx : ℕ → ℕ)
    (ht : ∀ i j, i < n → j < n → i ≠ j → t i ≠ t j)
    (hs : ∀ i j, i < n → j < n → i ≠ j → surv (sIdx i) i ≠ surv (sIdx i) j) :
    concordance_td n t d surv sIdx "antolini" = concordance_td n t d surv sIdx "adj_antolini" := by
  have hN : sum_concordant_disc n surv t d sIdx is_concordant_antolini
      = sum_concordant_disc n surv t d sIdx is_concordant := by
    unfold sum_concordant_disc
    rw [list_sum_range, list_sum_range]
    refine Finset.sum_congr rfl fun i hi => ?_
    rw [list_sum_range, list_sum_range]
    refine Finset.sum_congr rfl fun j hj => ?_
    by_cases hij : j = i
    · simp [hij]
    · rw [if_pos hij, if_pos hij]
      exact ((no_ties_pair_agree _ _ _ _ (d i) (d j)
        (ht i j (Finset.mem_range.mp hi) (Finset.mem_range.mp hj) (fun hh => hij hh.symm))
        (hs i j (Finset.mem_range.mp hi) (Finset.mem_range.mp hj) (fun hh => hij hh.symm))).1).symm
  have hD : sum_comparable n t d is_comparable_antolini
      = sum_comparable n t d is_comparable := by
    unfold sum_comparable
    rw [list_sum_range, list_sum_range]
    refine Finset.sum_congr rfl fun i hi => ?_
    rw [list_sum_range, list_sum_range]
    refine Finset.sum_congr rfl fun j hj => ?_
    by_cases hij : j = i
    · simp [hij]
    · rw [if_pos hij, if_pos hij]
      have hpair := (no_ties_pair_agree (surv (sIdx i) i) (surv (sIdx i) j) (t i) (t j) (d i) (d j)
        (ht i j (Finset.mem_range.mp hi) (Finset.mem_range.mp hj) (fun hh => hij hh.symm))
        (hs i j (Finset.mem_range.mp hi) (Finset.mem_range.mp hj) (fun hh => hij hh.symm))).2
      rw [← hpair]
  unfold concordance_td
  simp only [String.reduceEq, if_false, ite_false, if_true, ite_true]
  rw [hN, hD]

/-- Witness for C5 (amended): two subjects with distinct durations and
distinct predictions; both methods agree there. -/
theorem concordance_methods_agree_no_ties_witness :
    concordance_td 2 (fun i => (i : ℚ)) (fun _ => true) (fun _ j => (j : ℚ)) (fun _ => 0)
        "antolini" =
      concordance_td 2 (fun i => (i : ℚ)) (fun _ => true) (fun _ j => (j : ℚ)) (fun _ => 0)
        "adj_antolini" :=
  concordance_methods_agree_no_ties 2 _ _ _ _
    (fun _ _ _ _ hij heq => hij (Nat.cast_injective heq))
    (fun _ _ _ _ hij heq => hij (Nat.cast_injective heq))

theorem brier_at_structure (n : ℕ) (T : ℕ → ℚ) (d : ℕ → Bool) (tm : ℚ) (p : ℕ → ℚ) :
    brier_at n T d tm p =
      (∑ i in Finset.range n,
        (if T i ≤ tm ∧ d i = true then (p i) ^ 2 / kmCensor n T d (T i)
         else if tm < T i then (1 - p i) ^ 2 / kmCensor n T d tm
         else 0)) / n := by
  unfold brier_at
  congr 1
  rw [Finset.sum_filter, Finset.sum_filter, ← Finset.sum_add_distrib]
  refine Finset.sum_congr rfl fun i _ => ?_
  by_cases h1 : T i ≤ tm ∧ d i = true
  · rw [if_pos h1, if_pos h1, if_neg (not_lt.mpr h1.1), add_zero]
  · rw [if_neg h1, if_neg h1, zero_add]

/-- C6: each per-time Brier score partitions the subjects into
`died = (duration <= t) & event` and `survived = duration > t`; a died
subject contributes `p^2` divided by the censoring curve at its own duration,
a surviving subject contributes `(1-p)^2` divided by the censoring curve at
the query time, everyone else (censored at or before `t`) contributes
nothing, and the score is the total divided by `n`. -/
theorem brier_score_partitions (times : List ℚ) (prob : ℕ → ℕ → ℚ) (n : ℕ)
    (T : ℕ → ℚ) (d : ℕ → Bool) :
    brier_score times prob n T d =
      times.enum.map (fun kt =>
        (∑ i in Finset.range n,
          (if T i ≤ kt.2 ∧ d i = true then (prob kt.1 i) ^ 2 / kmCensor n T d (T i)
           else if kt.2 < T i then (1 - prob kt.1 i) ^ 2 / kmCensor n T d kt.2
           else 0)) / n) := by
  unfold brier_score
  refine List.map_congr_left fun kt _ => ?_
  exact brier_at_structure n T d kt.2 (prob kt.1)

theorem censAt_le_atRisk (n : ℕ) (T : ℕ → ℚ) (d : ℕ → Bool) (τ : ℚ) :
    censAt n T d τ ≤ atRisk n T τ := by
  apply Finset.card_le_card
  intro i hi
  rw [Finset.mem_filter] at hi ⊢
  exact ⟨hi.1, le_of_eq hi.2.1.symm⟩

theorem kmFactor_nonneg (n : ℕ) (T : ℕ → ℚ) (d : ℕ → Bool) (τ : ℚ) :
    0 ≤ kmFactor n T d τ := by
  unfold kmFactor
  rcases Nat.eq_zero_or_pos (atRisk n T τ) with h | h
  · have hc : censAt n T d τ = 0 := Nat.le_zero.mp (h ▸ censAt_le_atRisk n T d τ)
    rw [h, hc]
    norm_num
  · have hR : (0 : ℚ) < (atRisk n T τ : ℚ) := by exact_mod_cast h
    have hdiv : (censAt n T d τ : ℚ) / (atRisk n T τ : ℚ) ≤ 1 := by
      rw [div_le_one hR]
      exact_mod_cast censAt_le_atRisk n T d τ
    linarith

theorem kmFactor_le_one (n : ℕ) (T : ℕ → ℚ) (d : ℕ → Bool) (τ : ℚ) :
    kmFactor n T d τ ≤ 1 := by
  unfold kmFactor
  have : (0 : ℚ) ≤ (censAt n T d τ : ℚ) / (atRisk n T τ : ℚ) :=
    div_nonneg (Nat.cast_nonneg _) (Nat.cast_nonneg _)
  linarith

theorem kmCensor_nonneg (n : ℕ) (T : ℕ → ℚ) (d : ℕ → Bool) (x : ℚ) :
    0 ≤ kmCensor n T d x :=
  Finset.prod_nonneg fun τ _ => kmFactor_nonneg n T d τ

theorem kmFactor_pos (n : ℕ) (T : ℕ → ℚ) (d : ℕ → Bool) (τ : ℚ) (i : ℕ)
    (hi : i < n) (hτ : τ ≤ T i) (hne : T i = τ → d i = true) :
    0 < kmFactor n T d τ := by
  have hmem : i ∈ (Finset.range n).filter (fun i => τ ≤ T i) :=
    Finset.mem_filter.mpr ⟨Finset.mem_range.mpr hi, hτ⟩
  have hnotmem : i ∉ (Finset.range n).filter (fun i => T i = τ ∧ d i = false) := by
    rw [Finset.mem_filter]
    rintro ⟨-, heq, hdf⟩
    have hdt := hne heq
    rw [hdt] at hdf
    exact Bool.noConfusion hdf
  have hsub : (Finset.range n).filter (fun i => T i = τ ∧ d i = false) ⊆
      (Finset.range n).filter (fun i => τ ≤ T i) := by
    intro j hj
    rw [Finset.mem_filter] at hj ⊢
    exact ⟨hj.1, le_of_eq hj.2.1.symm⟩
  have hlt : censAt n T d τ < atRisk n T τ :=
    Finset.card_lt_card ((Finset.ssubset_iff_of_subset hsub).mpr ⟨i, hmem, hnotmem⟩)
  have hR : (0 : ℚ) < (atRisk n T τ : ℚ) := by
    have : 0 < atRisk n T τ := Nat.pos_of_ne_zero (fun h0 => by omega)
    exact_mod_cast this
  have hdiv : (censAt n T d τ : ℚ) / (atRisk n T τ : ℚ) < 1 := by
    rw [div_lt_one hR]
    exact_mod_cast hlt
  unfold kmFactor
  linarith

theorem kmCensor_pos (n : ℕ) (T : ℕ → ℚ) (d : ℕ → Bool) (x : ℚ) (i : ℕ)
    (hi : i < n) (hxi : x ≤ T i) (hdi : d i = true ∨ x < T i) :
    0 < kmCensor n T d x := by
  refine Finset.prod_pos fun τ hτ => ?_
  rw [Finset.mem_filter] at hτ
  refine kmFactor_pos n T d τ i hi (le_trans hτ.2 hxi) (fun heq => ?_)
  rcases hdi with hd | hlt
  · exact hd
  · exact absurd heq (ne_of_gt (lt_of_le_of_lt hτ.2 hlt))

theorem km_step_ineq (Dq Cq Rsq G' : ℚ) (hD : 0 ≤ Dq) (hC : 0 ≤ Cq) (hRs : 0 ≤ Rsq)
    (hG' : 0 ≤ G') :
    Dq / (G' * (1 - Cq / (Rsq + (Dq + Cq)))) + Rsq / (G' * (1 - Cq / (Rsq + (Dq + Cq))))
      ≤ (Rsq + (Dq + Cq)) / G' := by
  rcases hG'.eq_or_lt with hg0 | hgpos
  · rw [← hg0]
    simp
  · by_cases hzero : Rsq + Dq = 0
    · have hD0 : Dq = 0 := by linarith
      have hRs0 : Rsq = 0 := by linarith
      rw [hD0, hRs0]
      simp only [zero_div, add_zero, zero_add]
      exact div_nonneg hC hgpos.le
    · have hRD : 0 < Rsq + Dq := lt_of_le_of_ne (by positivity) (Ne.symm hzero)
      have hR : 0 < Rsq + (Dq + Cq) := by linarith
      have hf : 1 - Cq / (Rsq + (Dq + Cq)) = (Rsq + Dq) / (Rsq + (Dq + Cq)) := by
        field_simp
        ring
      rw [hf, div_add_div_same]
      apply le_of_eq
      rw [div_eq_div_iff
        (by positivity : (G' * ((Rsq + Dq) / (Rsq + (Dq + Cq)))) ≠ 0) hgpos.ne.symm]
      field_simp
      ring

theorem weight_sum_le (n : ℕ) (T : ℕ → ℚ) (d : ℕ → Bool) :
    ∀ k q, ((obsTimes n T).filter (fun τ => τ ≤ q)).card ≤ k →
      (∑ i in (Finset.range n).filter (fun i => T i ≤ q ∧ d i = true),
          1 / kmCensor n T d (T i))
        + (((Finset.range n).filter (fun i => q < T i)).card : ℚ) / kmCensor n T d q
      ≤ n := by
  intro k
  induction k with
  | zero =>
    intro q hq
    have hA : (obsTimes n T).filter (fun τ => τ ≤ q) = ∅ :=
      Finset.card_eq_zero.mp (Nat.le_zero.mp hq)
    have hnot : ∀ i, i < n → ¬(T i ≤ q) := by
      intro i hi hle
      have hmem : T i ∈ (obsTimes n T).filter (fun τ => τ ≤ q) :=
        Finset.mem_filter.mpr ⟨Finset.mem_image_of_mem T (Finset.mem_range.mpr hi), hle⟩
      rw [hA] at hmem
      exact absurd hmem (Finset.not_mem_empty _)
    have hdied : (Finset.range n).filter (fun i => T i ≤ q ∧ d i = true) = ∅ := by
      rw [Finset.eq_empty_iff_forall_not_mem]
      intro i hi
      rw [Finset.mem_filter, Finset.mem_range] at hi
      exact hnot i hi.1 hi.2.1
    have hsurv : (Finset.range n).filter (fun i => q < T i) = Finset.range n := by
      rw [Finset.filter_eq_self]
      intro i hi
      exact lt_of_not_le (hnot i (Finset.mem_range.mp hi))
    have hG : kmCensor n T d q = 1 := by
      unfold kmCensor
      rw [hA, Finset.prod_empty]
    rw [hdied, hsurv, hG, Finset.sum_empty, Finset.card_range, div_one, zero_add]
  | succ k ih =>
    intro q hq
    by_cases hk : ((obsTimes n T).filter (fun τ => τ ≤ q)).card ≤ k
    · exact ih q hk
    have hA : ((obsTimes n T).filter (fun τ => τ ≤ q)).Nonempty := by
      rw [← Finset.card_pos]
      omega
    obtain ⟨τ0, hτ0mem, hτ0max⟩ : ∃ τ0 ∈ (obsTimes n T).filter (fun τ => τ ≤ q),
        ∀ x ∈ (obsTimes n T).filter (fun τ => τ ≤ q), x ≤ τ0 :=
      ⟨_, ((obsTimes n T).filter (fun τ => τ ≤ q)).max'_mem hA,
        fun x hx => Finset.le_max' _ x hx⟩
    have hτ0obs : τ0 ∈ obsTimes n T := (Finset.mem_filter.mp hτ0mem).1
    have hτ0q : τ0 ≤ q := (Finset.mem_filter.mp hτ0mem).2
    have hTmem : ∀ i, i < n → T i ≤ q → T i ∈ (obsTimes n T).filter (fun τ => τ ≤ q) :=
      fun i hi hle =>
        Finset.mem_filter.mpr ⟨Finset.mem_image_of_mem T (Finset.mem_range.mpr hi), hle⟩
    obtain ⟨q', hBq', hq'lt⟩ : ∃ q',
        (obsTimes n T).filter (fun τ => τ ≤ q') = (obsTimes n T).filter (fun τ => τ < τ0)
        ∧ q' < τ0 := by
      by_cases hB : ((obsTimes n T).filter (fun τ => τ < τ0)).Nonempty
      · refine ⟨((obsTimes n T).filter (fun τ => τ < τ0)).max' hB, ?_, ?_⟩
        · ext x
          simp only [Finset.mem_filter]
          constructor
          · rintro ⟨hx, hle⟩
            exact ⟨hx, lt_of_le_of_lt hle (Finset.mem_filter.mp (Finset.max'_mem _ hB)).2⟩
          · rintro ⟨hx, hlt⟩
            exact ⟨hx, Finset.le_max' ((obsTimes n T).filter (fun τ => τ < τ0)) x
              (Finset.mem_filter.mpr ⟨hx, hlt⟩)⟩
        · exact (Finset.mem_filter.mp (Finset.max'_mem _ hB)).2
      · refine ⟨τ0 - 1, ?_, by linarith⟩
        ext x
        simp only [Finset.mem_filter]
        constructor
        · rintro ⟨hx, hle⟩
          exact ⟨hx, by linarith⟩
        · rintro ⟨hx, hlt⟩
          exact absurd ⟨x, Finset.mem_filter.mpr ⟨hx, hlt⟩⟩ hB
    have hq'q : q' ≤ q := le_trans (le_of_lt hq'lt) hτ0q
    have hAins : (obsTimes n T).filter (fun τ => τ ≤ q)
        = insert τ0 ((obsTimes n T).filter (fun τ => τ ≤ q')) := by
      rw [hBq']
      ext x
      simp only [Finset.mem_filter, Finset.mem_insert]
      constructor
      · rintro ⟨hx, hle⟩
        rcases eq_or_lt_of_le (hτ0max x (Finset.mem_filter.mpr ⟨hx, hle⟩)) with he | hl
        · exact Or.inl he
        · exact Or.inr ⟨hx, hl⟩
      · rintro (rfl | ⟨hx, hlt⟩)
        · exact ⟨hτ0obs, hτ0q⟩
        · exact ⟨hx, le_trans (le_of_lt hlt) hτ0q⟩
    have hτ0notB : τ0 ∉ (obsTimes n T).filter (fun τ => τ ≤ q') := by
      rw [hBq', Finset.mem_filter]
      rintro ⟨-, hlt⟩
      exact lt_irrefl τ0 hlt
    have hcardB : ((obsTimes n T).filter (fun τ => τ ≤ q')).card ≤ k := by
      have hins := Finset.card_insert_of_not_mem hτ0notB
      rw [← hAins] at hins
      omega
    have IH := ih q' hcardB
    have hTsplit : ∀ i, i < n → (T i ≤ q ↔ T i ≤ q' ∨ T i = τ0) := by
      intro i hi
      constructor
      · intro hle
        have hmem := hTmem i hi hle
        rw [hAins, Finset.mem_insert] at hmem
        rcases hmem with he | hmem
        · exact Or.inr he
        · exact Or.inl (Finset.mem_filter.mp hmem).2
      · rintro (hle | heq)
        · exact le_trans hle hq'q
        · rw [heq]; exact hτ0q
    have hsplit_died : (Finset.range n).filter (fun i => T i ≤ q ∧ d i = true)
        = (Finset.range n).filter (fun i => T i ≤ q' ∧ d i = true)
          ∪ (Finset.range n).filter (fun i => T i = τ0 ∧ d i = true) := by
      ext i
      simp only [Finset.mem_filter, Finset.mem_union, Finset.mem_range]
      constructor
      · rintro ⟨hin, hle, hd⟩
        rcases (hTsplit i hin).mp hle with h | h
        · exact Or.inl ⟨hin, h, hd⟩
        · exact Or.inr ⟨hin, h, hd⟩
      · rintro (⟨hin, hle, hd⟩ | ⟨hin, heq, hd⟩)
        · exact ⟨hin, (hTsplit i hin).mpr (Or.inl hle), hd⟩
        · exact ⟨hin, (hTsplit i hin).mpr (Or.inr heq), hd⟩
    have hdisj_died : Disjoint ((Finset.range n).filter (fun i => T i ≤ q' ∧ d i = true))
        ((Finset.range n).filter (fun i => T i = τ0 ∧ d i = true)) := by
      rw [Finset.disjoint_left]
      intro i h1 h2
      rw [Finset.mem_filter] at h1 h2
      have hle := h1.2.1
      rw [h2.2.1] at hle
      linarith
    have hsurv_q : (Finset.range n).filter (fun i => q < T i)
        = (Finset.range n).filter (fun i => τ0 < T i) := by
      ext i
      simp only [Finset.mem_filter, Finset.mem_range]
      constructor
      · rintro ⟨hin, hlt⟩
        exact ⟨hin, lt_of_le_of_lt hτ0q hlt⟩
      · rintro ⟨hin, hlt⟩
        refine ⟨hin, ?_⟩
        by_contra hno
        push_neg at hno
        have := hτ0max (T i) (hTmem i hin hno)
        linarith
    have hsurv_q' : (Finset.range n).filter (fun i => q' < T i)
        = (Finset.range n).filter (fun i => τ0 < T i)
          ∪ (Finset.range n).filter (fun i => T i = τ0) := by
      ext i
      simp only [Finset.mem_filter, Finset.mem_union, Finset.mem_range]
      constructor
      · rintro ⟨hin, hlt⟩
        rcases lt_trichotomy (T i) τ0 with h | h | h
        · exfalso
          have hmem : T i ∈ (obsTimes n T).filter (fun τ => τ ≤ q') := by
            rw [hBq']
            exact Finset.mem_filter.mpr
              ⟨Finset.mem_image_of_mem T (Finset.mem_range.mpr hin), h⟩
          have := (Finset.mem_filter.mp hmem).2
          linarith
        · exact Or.inr ⟨hin, h⟩
        · exact Or.inl ⟨hin, h⟩
      · rintro (⟨hin, hlt⟩ | ⟨hin, heq⟩)
        · exact ⟨hin, lt_trans hq'lt hlt⟩
        · refine ⟨hin, ?_⟩
          rw [heq]
          exact hq'lt
    have hdisj_surv : Disjoint ((Finset.range n).filter (fun i => τ0 < T i))
        ((Finset.range n).filter (fun i => T i = τ0)) := by
      rw [Finset.disjoint_left]
      intro i h1 h2
      rw [Finset.mem_filter] at h1 h2
      rw [h2.2] at h1
      exact lt_irrefl τ0 h1.2
    have hatRisk : atRisk n T τ0
        = ((Finset.range n).filter (fun i => τ0 < T i)).card
          + ((Finset.range n).filter (fun i => T i = τ0)).card := by
      unfold atRisk
      rw [← Finset.card_union_of_disjoint hdisj_surv]
      congr 1
      ext i
      simp only [Finset.mem_filter, Finset.mem_union, Finset.mem_range]
      constructor
      · rintro ⟨hin, hle⟩
        rcases lt_or_eq_of_le hle with h | h
        · exact Or.inl ⟨hin, h⟩
        · exact Or.inr ⟨hin, h.symm⟩
      · rintro (⟨hin, hlt⟩ | ⟨hin, heq⟩)
        · exact ⟨hin, le_of_lt hlt⟩
        · exact ⟨hin, le_of_eq heq.symm⟩
    have hdisj_mult : Disjoint ((Finset.range n).filter (fun i => T i = τ0 ∧ d i = true))
        ((Finset.range n).filter (fun i => T i = τ0 ∧ d i = false)) := by
      rw [Finset.disjoint_left]
      intro i h1 h2
      rw [Finset.mem_filter] at h1 h2
      rw [h1.2.2] at h2
      exact Bool.noConfusion h2.2.2
    have hmult : ((Finset.range n).filter (fun i => T i = τ0)).card
        = ((Finset.range n).filter (fun i => T i = τ0 ∧ d i = true)).card
          + censAt n T d τ0 := by
      unfold censAt
      rw [← Finset.card_union_of_disjoint hdisj_mult]
      congr 1
      ext i
      simp only [Finset.mem_filter, Finset.mem_union, Finset.mem_range]
      constructor
      · rintro ⟨hin, heq⟩
        cases hdd : d i
        · exact Or.inr ⟨hin, heq, rfl⟩
        · exact Or.inl ⟨hin, heq, rfl⟩
      · rintro (⟨hin, heq, -⟩ | ⟨hin, heq, -⟩) <;> exact ⟨hin, heq⟩
    have hGq : kmCensor n T d q = kmCensor n T d q' * kmFactor n T d τ0 := by
      unfold kmCensor
      rw [hAins, Finset.prod_insert hτ0notB]
      ring
    have hGτ0 : kmCensor n T d τ0 = kmCensor n T d q := by
      unfold kmCensor
      congr 1
      ext x
      simp only [Finset.mem_filter]
      constructor
      · rintro ⟨hx, hle⟩
        exact ⟨hx, le_trans hle hτ0q⟩
      · rintro ⟨hx, hle⟩
        exact ⟨hx, hτ0max x (Finset.mem_filter.mpr ⟨hx, hle⟩)⟩
    have htie : ∑ i in (Finset.range n).filter (fun i => T i = τ0 ∧ d i = true),
        1 / kmCensor n T d (T i)
        = (((Finset.range n).filter (fun i => T i = τ0 ∧ d i = true)).card : ℚ)
          / kmCensor n T d q := by
      rw [Finset.sum_congr rfl (fun i hi => by rw [(Finset.mem_filter.mp hi).2.1, hGτ0])]
      rw [Finset.sum_const, nsmul_eq_mul, mul_one_div]
    have hfactor : kmFactor n T d τ0
        = 1 - (censAt n T d τ0 : ℚ)
            / ((((Finset.range n).filter (fun i => τ0 < T i)).card : ℚ)
              + ((((Finset.range n).filter (fun i => T i = τ0 ∧ d i = true)).card : ℚ)
                + (censAt n T d τ0 : ℚ))) := by
      unfold kmFactor
      rw [hatRisk, hmult]
      push_cast
      ring
    have hstep : (((Finset.range n).filter (fun i => T i = τ0 ∧ d i = true)).card : ℚ)
          / kmCensor n T d q
        + ((((Finset.range n).filter (fun i => τ0 < T i)).card : ℚ)) / kmCensor n T d q
        ≤ ((((Finset.range n).filter (fun i => τ0 < T i)).card : ℚ)
          + ((((Finset.range n).filter (fun i => T i = τ0 ∧ d i = true)).card : ℚ)
            + (censAt n T d τ0 : ℚ))) / kmCensor n T d q' := by
      have h0 := km_step_ineq
        (((Finset.range n).filter (fun i => T i = τ0 ∧ d i = true)).card : ℚ)
        (censAt n T d τ0 : ℚ)
        (((Finset.range n).filter (fun i => τ0 < T i)).card : ℚ)
        (kmCensor n T d q')
        (Nat.cast_nonneg _) (Nat.cast_nonneg _) (Nat.cast_nonneg _)
        (kmCensor_nonneg n T d q')
      rw [← hfactor, ← hGq] at h0
      exact h0
    have hIH' : (∑ i in (Finset.range n).filter (fun i => T i ≤ q' ∧ d i = true),
          1 / kmCensor n T d (T i))
        + ((((Finset.range n).filter (fun i => τ0 < T i)).card : ℚ)
          + ((((Finset.range n).filter (fun i => T i = τ0 ∧ d i = true)).card : ℚ)
            + (censAt n T d τ0 : ℚ))) / kmCensor n T d q' ≤ n := by
      have hc : (((Finset.range n).filter (fun i => q' < T i)).card : ℚ)
          = (((Finset.range n).filter (fun i => τ0 < T i)).card : ℚ)
            + ((((Finset.range n).filter (fun i => T i = τ0 ∧ d i = true)).card : ℚ)
              + (censAt n T d τ0 : ℚ)) := by
        rw [hsurv_q', Finset.card_union_of_disjoint hdisj_surv, hmult]
        push_cast
        ring
      rw [← hc]
      exact IH
    rw [hsplit_died, Finset.sum_union hdisj_died, htie, hsurv_q]
    linarith [hstep, hIH']

theorem brier_at_unit_interval (n : ℕ) (T : ℕ → ℚ) (d : ℕ → Bool) (tm : ℚ) (p : ℕ → ℚ)
    (hp : ∀ i, i < n → 0 ≤ p i ∧ p i ≤ 1) :
    0 ≤ brier_at n T d tm p ∧ brier_at n T d tm p ≤ 1 := by
  have hA0 : 0 ≤ ∑ i in (Finset.range n).filter (fun i => T i ≤ tm ∧ d i = true),
      (p i) ^ 2 / kmCensor n T d (T i) :=
    Finset.sum_nonneg fun i _ => div_nonneg (sq_nonneg _) (kmCensor_nonneg n T d (T i))
  have hB0 : 0 ≤ ∑ i in (Finset.range n).filter (fun i => tm < T i),
      (1 - p i) ^ 2 / kmCensor n T d tm :=
    Finset.sum_nonneg fun i _ => div_nonneg (sq_nonneg _) (kmCensor_nonneg n T d tm)
  constructor
  · exact div_nonneg (by linarith) (Nat.cast_nonneg n)
  · rcases Nat.eq_zero_or_pos n with hn | hn
    · subst hn
      unfold brier_at
      simp
    · have hA : (∑ i in (Finset.range n).filter (fun i => T i ≤ tm ∧ d i = true),
          (p i) ^ 2 / kmCensor n T d (T i))
          ≤ ∑ i in (Finset.range n).filter (fun i => T i ≤ tm ∧ d i = true),
            1 / kmCensor n T d (T i) := by
        refine Finset.sum_le_sum fun i hi => ?_
        have hin := Finset.mem_range.mp (Finset.mem_filter.mp hi).1
        exact div_le_div_of_nonneg_right (pow_le_one₀ (hp i hin).1 (hp i hin).2)
          (kmCensor_nonneg n T d (T i))
      have hB : (∑ i in (Finset.range n).filter (fun i => tm < T i),
          (1 - p i) ^ 2 / kmCensor n T d tm)
          ≤ (((Finset.range n).filter (fun i => tm < T i)).card : ℚ) / kmCensor n T d tm := by
        have hstep : (∑ i in (Finset.range n).filter (fun i => tm < T i),
            (1 - p i) ^ 2 / kmCensor n T d tm)
            ≤ ∑ _i in (Finset.range n).filter (fun i => tm < T i), 1 / kmCensor n T d tm := by
          refine Finset.sum_le_sum fun i hi => ?_
          have hin := Finset.mem_range.mp (Finset.mem_filter.mp hi).1
          have h1 : (1 - p i) ^ 2 ≤ 1 :=
            pow_le_one₀ (by linarith [(hp i hin).2]) (by linarith [(hp i hin).1])
          exact div_le_div_of_nonneg_right h1 (kmCensor_nonneg n T d tm)
        rw [Finset.sum_const, nsmul_eq_mul, mul_one_div] at hstep
        exact hstep
      have hW := weight_sum_le n T d ((obsTimes n T).filter (fun τ => τ ≤ tm)).card tm
        (le_refl _)
      unfold brier_at
      rw [div_le_one (by exact_mod_cast hn : (0 : ℚ) < (n : ℚ))]
      linarith

theorem is_concordant_bounds (si sj ti tj : ℚ) (di dj : Bool) :
    0 ≤ is_concordant si sj ti tj di dj ∧
    is_concordant si sj ti tj di dj ≤ (if is_comparable ti tj di dj then 1 else 0) := by
  rcases lt_trichotomy ti tj with h | h | h
  · rcases lt_trichotomy si sj with h2 | h2 | h2
    · cases di <;> cases dj <;> constructor <;>
        norm_num [is_concordant, is_comparable, h, h.ne, h2, h2.ne]
    · cases di <;> cases dj <;> constructor <;>
        norm_num [is_concordant, is_comparable, h, h.ne, h2]
    · cases di <;> cases dj <;> constructor <;>
        norm_num [is_concordant, is_comparable, h, h.ne, h2.ne', lt_asymm h2]
  · rcases lt_trichotomy si sj with h2 | h2 | h2
    · cases di <;> cases dj <;> constructor <;>
        norm_num [is_concordant, is_comparable, h, h2, h2.ne, lt_asymm h2]
    · cases di <;> cases dj <;> constructor <;>
        norm_num [is_concordant, is_comparable, h, h2]
    · cases di <;> cases dj <;> constructor <;>
        norm_num [is_concordant, is_comparable, h, h2, h2.ne', lt_asymm h2]
  · rcases lt_trichotomy si sj with h2 | h2 | h2
    · cases di <;> cases dj <;> constructor <;>
        norm_num [is_concordant, is_comparable, h, h.ne', lt_asymm h, h2, h2.ne]
    · cases di <;> cases dj <;> constructor <;>
        norm_num [is_concordant, is_comparable, h, h.ne', lt_asymm h, h2]
    · cases di <;> cases dj <;> constructor <;>
        norm_num [is_concordant, is_comparable, h, h.ne', lt_asymm h, h2.ne', lt_asymm h2]

theorem is_concordant_antolini_bounds (si sj ti tj : ℚ) (di dj : Bool) :
    0 ≤ is_concordant_antolini si sj ti tj di dj ∧
    is_concordant_antolini si sj ti tj di dj
      ≤ (if is_comparable_antolini ti tj di dj then 1 else 0) := by
  unfold is_concordant_antolini
  constructor
  · split <;> norm_num
  · by_cases hc : is_comparable_antolini ti tj di dj = true
    · simp only [hc, if_true, and_true]
      split <;> norm_num
    · simp [hc]

theorem sum_ratio_bounds (n : ℕ) (t : ℕ → ℚ) (d : ℕ → Bool) (surv : ℕ → ℕ → ℚ)
    (sIdx : ℕ → ℕ) (concf : ℚ → ℚ → ℚ → ℚ → Bool → Bool → ℚ)
    (cmpf : ℚ → ℚ → Bool → Bool → Bool)
    (hb : ∀ si sj ti tj di dj, 0 ≤ concf si sj ti tj di dj ∧
      concf si sj ti tj di dj ≤ (if cmpf ti tj di dj then 1 else 0)) :
    0 ≤ sum_concordant_disc n surv t d sIdx concf ∧
    sum_concordant_disc n surv t d sIdx concf ≤ sum_comparable n t d cmpf := by
  unfold sum_concordant_disc sum_comparable
  rw [list_sum_range, list_sum_range]
  constructor
  · refine Finset.sum_nonneg fun i _ => ?_
    rw [list_sum_range]
    refine Finset.sum_nonneg fun j _ => ?_
    by_cases hij : j = i
    · simp [hij]
    · rw [if_pos hij]
      exact (hb _ _ _ _ _ _).1
  · refine Finset.sum_le_sum fun i _ => ?_
    rw [list_sum_range, list_sum_range]
    refine Finset.sum_le_sum fun j _ => ?_
    by_cases hij : j = i
    · simp [hij]
    · rw [if_pos hij, if_pos hij]
      exact (hb _ _ _ _ _ _).2

/-- C7: for both methods, whenever `concordance_td` returns a numeric value
and the comparable-pair count is positive, the value lies in `[0,1]`; and
when every prediction lies in `[0,1]`, every entry of the array returned by
`brier_score` lies in `[0,1]`. -/
theorem metric_range_bounds :
    (∀ (n : ℕ) (t : ℕ → ℚ) (d : ℕ → Bool) (surv : ℕ → ℕ → ℚ) (sIdx : ℕ → ℕ) (q : ℚ),
        0 < sum_comparable n t d is_comparable →
        concordance_td n t d surv sIdx "adj_antolini" = ConcResult.value q →
        0 ≤ q ∧ q ≤ 1) ∧
    (∀ (n : ℕ) (t : ℕ → ℚ) (d : ℕ → Bool) (surv : ℕ → ℕ → ℚ) (sIdx : ℕ → ℕ) (q : ℚ),
        0 < sum_comparable n t d is_comparable_antolini →
        concordance_td n t d surv sIdx "antolini" = ConcResult.value q →
        0 ≤ q ∧ q ≤ 1) ∧
    (∀ (times : List ℚ) (prob : ℕ → ℕ → ℚ) (n : ℕ) (T : ℕ → ℚ) (d : ℕ → Bool),
        (∀ k i, i < n → 0 ≤ prob k i ∧ prob k i ≤ 1) →
        ∀ x ∈ brier_score times prob n T d, 0 ≤ x ∧ x ≤ 1) := by
  refine ⟨?_, ?_, ?_⟩
  · intro n t d surv sIdx q hD hval
    unfold concordance_td at hval
    rw [if_pos rfl] at hval
    injection hval with hval
    have hb := sum_ratio_bounds n t d surv sIdx is_concordant is_comparable
      (fun si sj ti tj di dj => is_concordant_bounds si sj ti tj di dj)
    constructor
    · rw [← hval]
      exact div_nonneg hb.1 (le_of_lt hD)
    · rw [← hval, div_le_one hD]
      exact hb.2
  · intro n t d surv sIdx q hD hval
    unfold concordance_td at hval
    rw [if_neg (by decide : ¬("antolini" : String) = "adj_antolini"), if_pos rfl] at hval
    injection hval with hval
    have hb := sum_ratio_bounds n t d surv sIdx is_concordant_antolini is_comparable_antolini
      (fun si sj ti tj di dj => is_concordant_antolini_bounds si sj ti tj di dj)
    constructor
    · rw [← hval]
      exact div_nonneg hb.1 (le_of_lt hD)
    · rw [← hval, div_le_one hD]
      exact hb.2
  · intro times prob n T d hp x hx
    unfold brier_score at hx
    rw [List.mem_map] at hx
    obtain ⟨kt, hkt, rfl⟩ := hx
    exact brier_at_unit_interval n T d kt.2 (prob kt.1) (fun i hi => hp kt.1 i hi)

/-- Witness for C7: the hypotheses hold and both bounds evaluate at concrete
inputs for the concordance (two subjects, default method, value one half) and
for the Brier score (one subject, one time). -/
theorem metric_range_bounds_witness :
    ((0 : ℚ) < sum_comparable 2 (fun i => (i : ℚ)) (fun _ => true) is_comparable) ∧
    (0 ≤ (1 : ℚ) / 2 ∧ (1 : ℚ) / 2 ≤ 1) ∧
    (0 ≤ brier_at 1 (fun _ => 1) (fun _ => true) 1 (fun _ => (1 : ℚ) / 2) ∧
      brier_at 1 (fun _ => 1) (fun _ => true) 1 (fun _ => (1 : ℚ) / 2) ≤ 1) := by
  refine ⟨by norm_num [sum_comparable, List.range_succ, is_comparable], ?_, ?_⟩
  · refine metric_range_bounds.1 2 (fun i => (i : ℚ)) (fun _ => true) (fun _ _ => (1 : ℚ) / 2)
      (fun _ => 0) ((1 : ℚ) / 2)
      (by norm_num [sum_comparable, List.range_succ, is_comparable]) ?_
    norm_num [concordance_td, sum_concordant_disc, sum_comparable, List.range_succ,
      is_concordant, is_comparable]
  · have hmem : brier_at 1 (fun _ => 1) (fun _ => true) 1 (fun _ => (1 : ℚ) / 2)
        ∈ brier_score [1] (fun _ _ => (1 : ℚ) / 2) 1 (fun _ => 1) (fun _ => true) := by
      unfold brier_score
      simp [List.enum]
    exact metric_range_bounds.2.2 [1] (fun _ _ => (1 : ℚ) / 2) 1 (fun _ => 1) (fun _ => true)
      (fun _ i _ => by norm_num) _ hmem

/-- C8 counterexample: the grid `[0, 0]` is not strictly increasing (two equal
adjacent times), yet both integration wrappers pass the monotone check and
return an ordinary value instead of failing: the check is pandas'
non-strict `is_monotonic_increasing`. -/
theorem grid_tie_passes_monotone_check :
    integrated_brier_score_numpy (fun _ => [FloatVal.fin 0, FloatVal.fin 0]) (fun _ _ => 0)
        [0, 0] = Except.ok 0 ∧
    integrated_binomial_log_likelihood_numpy (fun _ => [FloatVal.fin 0, FloatVal.fin 0])
        (fun _ _ => 0) [0, 0] = Except.ok 0 := by
  constructor <;>
    norm_num [integrated_brier_score_numpy, integrated_binomial_log_likelihood_numpy,
      isMonotonicIncreasing, filteredPairs, List.filterMap_cons, List.filterMap_nil]

/-- C8 (amended): both integration wrappers fail with the invalid-argument
signal exactly when the grid fails pandas' NON-strict monotone check, i.e.
when some adjacent pair strictly decreases; equal adjacent times pass. -/
theorem integration_grid_check_nonstrict (scorer : List ℚ → List FloatVal)
    (integrate : List ℚ → List ℚ → ℚ) (grid : List ℚ)
    (h : isMonotonicIncreasing grid = false) :
    integrated_brier_score_numpy scorer integrate grid
      = Except.error "Need monotonic increasing times_grid." ∧
    integrated_binomial_log_likelihood_numpy scorer integrate grid
      = Except.error "Need monotonic increasing times_grid." := by
  unfold integrated_brier_score_numpy integrated_binomial_log_likelihood_numpy
  rw [h]
  constructor <;> rfl

/-- Witness for C8 (amended): the strictly decreasing grid `[1, 0]` fails the
check and both wrappers signal the invalid argument. -/
theorem integration_grid_check_nonstrict_witness :
    isMonotonicIncreasing [(1 : ℚ), 0] = false ∧
    integrated_brier_score_numpy (fun _ => []) (fun _ _ => 0) [(1 : ℚ), 0]
      = Except.error "Need monotonic increasing times_grid." ∧
    integrated_binomial_log_likelihood_numpy (fun _ => []) (fun _ _ => 0) [(1 : ℚ), 0]
      = Except.error "Need monotonic increasing times_grid." := by
  have h : isMonotonicIncreasing [(1 : ℚ), 0] = false := by
    norm_num [isMonotonicIncreasing]
  exact ⟨h, (integration_grid_check_nonstrict (fun _ => []) (fun _ _ => 0) [(1 : ℚ), 0] h).1,
    (integration_grid_check_nonstrict (fun _ => []) (fun _ _ => 0) [(1 : ℚ), 0] h).2⟩

theorem chain_lt_monotone : ∀ grid : List ℚ, List.Chain' (· < ·) grid →
    isMonotonicIncreasing grid = true := by
  intro grid
  induction grid with
  | nil => intro _; rfl
  | cons a rest ih =>
    cases rest with
    | nil => intro _; rfl
    | cons b rest2 =>
      intro h
      rw [List.chain'_cons] at h
      simp [isMonotonicIncreasing, h.1.le, ih h.2]

/-- C9: on a strictly increasing grid whose scores contain a non-finite entry
(with at least one finite entry surviving), both integration wrappers return
without raising: the result is the integral of the remaining (time, score)
pairs divided by (last - first) of the remaining grid after filtering. -/
theorem integration_filters_nonfinite (scorer : List ℚ → List FloatVal)
    (integrate : List ℚ → List ℚ → ℚ) (grid : List ℚ)
    (hstrict : List.Chain' (· < ·) grid)
    (hnf : FloatVal.nonfin ∈ scorer grid)
    (hrem : filteredPairs (scorer grid) grid ≠ []) :
    integrated_brier_score_numpy scorer integrate grid
      = Except.ok (integrate ((filteredPairs (scorer grid) grid).map Prod.fst)
          ((filteredPairs (scorer grid) grid).map Prod.snd) /
        (((filteredPairs (scorer grid) grid).map Prod.snd).getLastD 0
          - ((filteredPairs (scorer grid) grid).map Prod.snd).headD 0)) ∧
    integrated_binomial_log_likelihood_numpy scorer integrate grid
      = Except.ok (integrate ((filteredPairs (scorer grid) grid).map Prod.fst)
          ((filteredPairs (scorer grid) grid).map Prod.snd) /
        (((filteredPairs (scorer grid) grid).map Prod.snd).getLastD 0
          - ((filteredPairs (scorer grid) grid).map Prod.snd).headD 0)) := by
  unfold integrated_brier_score_numpy integrated_binomial_log_likelihood_numpy
  rw [chain_lt_monotone grid hstrict]
  cases hfp : filteredPairs (scorer grid) grid with
  | nil => exact absurd hfp hrem
  | cons x rest =>
    constructor <;> simp

/-- Witness for C9: grid `[0, 1, 2]` with a non-finite middle score; both
wrappers integrate the two remaining pairs and divide by the remaining span. -/
theorem integration_filters_nonfinite_witness :
    List.Chain' (· < ·) [(0 : ℚ), 1, 2] ∧
    FloatVal.nonfin ∈ [FloatVal.fin 1, FloatVal.nonfin, FloatVal.fin 3] ∧
    integrated_brier_score_numpy (fun _ => [FloatVal.fin 1, FloatVal.nonfin, FloatVal.fin 3])
        (fun _ _ => 1) [0, 1, 2] = Except.ok (1 / 2) := by
  have hchain : List.Chain' (· < ·) [(0 : ℚ), 1, 2] := by
    simp only [List.chain'_cons, List.chain'_singleton, and_true]
    norm_num
  have hnf : FloatVal.nonfin ∈
      ((fun _ => [FloatVal.fin 1, FloatVal.nonfin, FloatVal.fin 3]) [(0 : ℚ), 1, 2]) := by
    simp
  have hrem : filteredPairs
      ((fun _ => [FloatVal.fin 1, FloatVal.nonfin, FloatVal.fin 3]) [(0 : ℚ), 1, 2])
      [(0 : ℚ), 1, 2] ≠ [] := by
    simp [filteredPairs]
  refine ⟨hchain, by simp, ?_⟩
  have h := (integration_filters_nonfinite
    (fun _ => [FloatVal.fin 1, FloatVal.nonfin, FloatVal.fin 3])
    (fun _ _ => 1) [0, 1, 2] hchain hnf hrem).1
  rw [h]
  norm_num [filteredPairs]
